import Mathlib

set_option maxRecDepth 4000

/-!
Verification of the chunk-storage engine core: the chunk identifier scheme
(hub/util/chunks.py), sample-wise compressed chunks
(hub/core/chunk/sample_compressed_chunk.py), linked video reads
(hub/core/linked_chunk_engine.py), and the distributed merge logic
(hub/util/transform.py).

Modeling conventions: Python bytes are `List Nat` (byte values), numpy arrays
are a shape / dtype-name / flat-data record, the compression and serialization
collaborators (out of scope per the spec) are opaque function parameters
bundled in a `Codec`, and fallible Python operations return `Option` or
`Except` (the error string naming the Python exception).
-/

/-! ## Chunk identifier scheme (hub/util/chunks.py) -/

/-- Hex digit characters: 0-9 and a-f (uppercase also accepted by the parsers,
as Python int(s, 16) and uuid.UUID accept both cases). -/
def isHexChar (c : Char) : Bool :=
  decide (('0' ≤ c ∧ c ≤ '9') ∨ ('a' ≤ c ∧ c ≤ 'f') ∨ ('A' ≤ c ∧ c ≤ 'F'))

/-- Numeric value of a hex digit character (0 for non-hex characters). -/
def hexVal (c : Char) : Nat :=
  if '0' ≤ c ∧ c ≤ '9' then c.toNat - 48
  else if 'a' ≤ c ∧ c ≤ 'f' then c.toNat - 97 + 10
  else if 'A' ≤ c ∧ c ≤ 'F' then c.toNat - 65 + 10
  else 0

/-- Lowercase hex digit character of a value below 16, as Python hex() emits. -/
def hexChar (d : Nat) : Char :=
  if d < 10 then Char.ofNat (48 + d) else Char.ofNat (87 + d)

/-- Little-endian base-16 digits of a number; fuel-based so the definition is
structural (the fuel only needs to be at least the number itself). -/
def hexDigitsCore : Nat → Nat → List Nat
  | 0, _ => []
  | _ + 1, 0 => []
  | fuel + 1, n + 1 => (n + 1) % 16 :: hexDigitsCore fuel ((n + 1) / 16)

def hexDigitsLE (n : Nat) : List Nat := hexDigitsCore n n

/-- Value of a little-endian hex digit list. -/
def ofHexLE : List Nat → Nat
  | [] => 0
  | d :: l => d + 16 * ofHexLE l

/-- Characters of Python hex(n)[2:]: minimal lowercase big-endian hex digits,
with hex(0)[2:] = "0". -/
def hexStringChars (n : Nat) : List Char :=
  if n = 0 then ['0'] else ((hexDigitsLE n).map hexChar).reverse

/-- chunk_name_from_id from hub/util/chunks.py: hex(id)[2:], the lowercase
hexadecimal text of id with the 0x removed; this is the chunk's name. -/
def chunk_name_from_id (id : Nat) : String :=
  String.mk (hexStringChars id)

/-- Python int(s, 16) restricted to what chunk names exercise: an optional 0x
marker followed by a nonempty run of hex digits. (Sign, whitespace and
underscores never occur in chunk names and are not modeled.) A malformed
string raises ValueError, modeled as none. -/
def pyIntHex (s : String) : Option Nat :=
  let cs := if s.data.take 2 = ['0', 'x'] then s.data.drop 2 else s.data
  if cs ≠ [] ∧ cs.all isHexChar = true then
    some (cs.foldl (fun a c => a * 16 + hexVal c) 0)
  else none

/-- chunk_id_from_name from hub/util/chunks.py: int("0x" + name, 16). -/
def chunk_id_from_name (name : String) : Option Nat :=
  pyIntHex ("0x" ++ name)

/-- Modelled from the spec: UUID_SHIFT_AMOUNT from hub/constants.py (file not in
src). The identifier is the random 128-bit value right-shifted down to the
fixed identifier width; the 24-character zero pad in chunk_uuid_from_id below,
against the 32 hex digits of a UUID, fixes the name width at 8 hex digits,
hence a 32-bit identifier and a shift amount of 96. -/
def UUID_SHIFT_AMOUNT : Nat := 96

/-- Modelled from the spec: ENCODING_DTYPE from hub/constants.py (file not in
src) is the fixed-width 32-bit unsigned identifier type; the cast wraps modulo
2^32. Embeds _cast_to_encoding_dtype(uuid) = ENCODING_DTYPE(uuid.int >>
UUID_SHIFT_AMOUNT). -/
def castToEncodingDtype (uuidInt : Nat) : Nat :=
  (uuidInt >>> UUID_SHIFT_AMOUNT) % 2 ^ 32

/-- random_chunk_id() = _cast_to_encoding_dtype(uuid4()); the random
uuid4().int is the 128-bit argument u. -/
def random_chunk_id (u : Nat) : Nat := castToEncodingDtype u

/-- Python uuid.UUID(hex=...) accepts exactly 32 hex digits (after stripping
punctuation, none of which occurs in the padded names built here) and yields
their value as the 128-bit uuid.int; any other length raises ValueError,
modeled as none. -/
def uuidFromHex (s : String) : Option Nat :=
  if s.data.length = 32 ∧ s.data.all isHexChar = true then
    some (s.data.foldl (fun a c => a * 16 + hexVal c) 0)
  else none

/-- chunk_uuid_from_id from hub/util/chunks.py: append 24 zero characters to
the chunk name and rebuild a UUID from the padded hex text. -/
def chunk_uuid_from_id (id : Nat) : Option Nat :=
  let chunk_name := chunk_name_from_id id
  let padded_chunk_name := chunk_name ++ String.mk (List.replicate 24 '0')
  uuidFromHex padded_chunk_name

/-- Shape of a value uuid4() can return: 128 bits with the version nibble equal
to 4 and the RFC 4122 variant bits equal to 10. -/
def isUuid4Shaped (u : Nat) : Prop :=
  u < 2 ^ 128 ∧ (u >>> 76) % 16 = 4 ∧ (u >>> 62) % 4 = 2

/-! ## Sample-wise compressed chunks (hub/core/chunk/sample_compressed_chunk.py) -/

/-- A numpy array: shape, dtype name, flat element data. Payloads are byte
lists; the element width is one byte (the uint8-family dtypes the concrete
instances use), so np.frombuffer yields one element per byte. -/
structure NDArr where
  shape : List Nat
  dtype : String
  data : List Nat
deriving DecidableEq

/-- hub.core.sample.Sample (hub/core/sample.py, file not in src): wraps either
a raw array or an already-compressed buffer together with its compression and
shape. -/
inductive PySample where
  | ofArray (a : NDArr)
  | ofBuffer (buffer : List Nat) (compression : String) (shape : List Nat)
deriving DecidableEq

/-- A value appended to a sample-compressed tensor: a Sample wrapper or an
ndarray / base value. -/
inductive SampleValue where
  | sampleV (s : PySample)
  | arrayV (a : NDArr)
deriving DecidableEq

/-- The compression / serialization / casting collaborators
(hub.core.compression, hub.core.serialize text codecs, hub.util.casting) —
external per spec sections 1 and 6 — bundled as opaque functions. -/
structure Codec where
  textToBytes : SampleValue → String → String → List Nat × List Nat
  compressBytes : String → List Nat → List Nat
  compressArr : String → NDArr → List Nat
  decompressBytes : String → List Nat → List Nat
  bytesToText : String → List Nat → String
  decompressArr : String → List Nat → List Nat → String → NDArr
  sampleArray : List Nat → String → List Nat → NDArr
  intelligentCast : NDArr → String → String → NDArr
  astype : NDArr → String → NDArr

/-- Modelled from the spec: Sample.array (hub/core/sample.py, file not in src):
an array-backed Sample returns its array; a buffer-backed Sample decodes its
buffer using its stored compression and shape. -/
def PySample.arr (cod : Codec) : PySample → NDArr
  | .ofArray a => a
  | .ofBuffer b comp sh => cod.sampleArray b comp sh

/-- The Sample.shape attribute. -/
def PySample.pyshape : PySample → List Nat
  | .ofArray a => a.shape
  | .ofBuffer _ _ sh => sh

/-- Modelled from the spec: Sample.compressed_bytes (hub/core/sample.py, file
not in src): when the stored buffer's compression already matches the target,
the stored buffer is returned unchanged (the memoization the spec describes);
otherwise the sample's array is compressed to the target compression. -/
def PySample.compressedBytes (cod : Codec) (ps : PySample) (target : String) : List Nat :=
  match ps with
  | .ofArray a => cod.compressArr target a
  | .ofBuffer b comp sh =>
      if comp = target then b else cod.compressArr target (cod.sampleArray b comp sh)

/-- Modelled from the spec: serialize_numpy_and_base_types
(hub/core/serialize.py, file not in src): cast the value to the declared
dtype, compress it, and report the cast array's shape. -/
def serialize_numpy_and_base_types (cod : Codec) (a : NDArr) (dt ht comp : String) :
    List Nat × List Nat :=
  let out := cod.intelligentCast a dt ht
  (cod.compressArr comp out, out.shape)

/-- Configuration attributes of a chunk; constant across one extend call. -/
structure ChunkConfig where
  dtype : String
  htype : String
  compression : String
  isTextLike : Bool
  isByteCompression : Bool
  maxChunkSize : Nat
deriving DecidableEq

/-- A sample-compressed chunk: configuration, the append-only payload buffer
(data_bytes, whose length is num_data_bytes), the shapes list, and the two
parallel per-sample headers (byte_positions_encoder, shapes_encoder). -/
structure Chunk where
  cfg : ChunkConfig
  dataBytes : List Nat
  shapes : List (List Nat)
  bytePositions : List (Nat × Nat)
  shapesEnc : List (List Nat)
deriving DecidableEq

/-- Rank-0 shapes are normalized to (1,) on write: `if shape is not None and
len(shape) == 0: shape = (1,)`. The shape is never None on the modeled paths —
every branch of serialize_sample produces one — so only the length test
remains. -/
def normalizeShape (sh : List Nat) : List Nat :=
  if sh.length = 0 then [1] else sh

/-- SampleCompressedChunk.serialize_sample: text-like tensors convert text to
bytes then compress; Sample wrappers report their shape and (after a dtype
cast when the codec is byte-level) their compressed bytes; arrays and base
values go through serialize_numpy_and_base_types. -/
def serialize_sample (cod : Codec) (cfg : ChunkConfig) (s : SampleValue) :
    List Nat × List Nat :=
  let out :=
    if cfg.isTextLike then
      let tb := cod.textToBytes s cfg.dtype cfg.htype
      (cod.compressBytes cfg.compression tb.1, tb.2)
    else
      match s with
      | .sampleV ps =>
          let shape := ps.pyshape
          let ps2 :=
            if cfg.isByteCompression then
              PySample.ofArray (cod.intelligentCast (ps.arr cod) cfg.dtype cfg.htype)
            else ps
          (PySample.compressedBytes cod ps2 cfg.compression, shape)
      | .arrayV a => serialize_numpy_and_base_types cod a cfg.dtype cfg.htype cfg.compression
  (out.1, normalizeShape out.2)

/-- Modelled from the spec: register_sample_to_headers
(hub/core/chunk/base_chunk.py, file not in src) appends the sample's byte
range — continuing at the previous end offset — and its shape to the two
parallel header encoders. -/
def registerSampleToHeaders (c : Chunk) (nbytes : Nat) (shape : List Nat) : Chunk :=
  let start :=
    match c.bytePositions.getLast? with
    | some p => p.2
    | none => 0
  { c with
    bytePositions := c.bytePositions ++ [(start, start + nbytes)]
    shapesEnc := c.shapesEnc ++ [shape] }

/-- Loop of SampleCompressedChunk.extend_if_has_space: serialize each incoming
sample, always rewrite it in the caller's list as an already-serialized Sample
wrapper (bytes + chunk compression + recorded shape), return the count
accepted so far as soon as a serialized sample does not fit, otherwise append
the payload and record it in the headers. prepare_for_write is a writability
check with no effect on this data and is not modeled; the in-place mutation of
incoming_samples is returned as the third component. -/
def extendLoop (cod : Codec) : Chunk → List SampleValue → Nat × Chunk × List SampleValue
  | c, [] => (0, c, [])
  | c, s :: rest =>
    let serialized := (serialize_sample cod c.cfg s).1
    let shape := (serialize_sample cod c.cfg s).2
    let wrapper := SampleValue.sampleV (PySample.ofBuffer serialized c.cfg.compression shape)
    if c.dataBytes.length + serialized.length > c.cfg.maxChunkSize then
      (0, c, wrapper :: rest)
    else
      let c2 := registerSampleToHeaders
        { c with dataBytes := c.dataBytes ++ serialized, shapes := c.shapes ++ [shape] }
        serialized.length shape
      ((extendLoop cod c2 rest).1 + 1, (extendLoop cod c2 rest).2.1,
        wrapper :: (extendLoop cod c2 rest).2.2)

/-- SampleCompressedChunk.extend_if_has_space: (accepted count, final chunk,
rewritten input list). -/
def extend_if_has_space (cod : Codec) (c : Chunk) (samples : List SampleValue) :
    Nat × Chunk × List SampleValue :=
  extendLoop cod c samples

/-- The wrapper written back into the caller's list at each visited position:
Sample(buffer=serialized, compression=self.compression, shape=shape). -/
def wrapSerialized (cod : Codec) (cfg : ChunkConfig) (s : SampleValue) : SampleValue :=
  SampleValue.sampleV (PySample.ofBuffer (serialize_sample cod cfg s).1 cfg.compression
    (serialize_sample cod cfg s).2)

/-- np.frombuffer(buffer, dtype) for one-byte-wide dtypes: one element per
byte, flat shape. -/
def npFrombuffer (b : List Nat) (dt : String) : NDArr := ⟨[b.length], dt, b⟩

/-- ndarray.reshape: succeeds exactly when the element count matches, numpy
raises otherwise. -/
def NDArr.reshape (a : NDArr) (sh : List Nat) : Option NDArr :=
  if sh.prod = a.data.length then some ⟨sh, a.dtype, a.data⟩ else none

inductive ReadResult where
  | textR (s : String)
  | arrR (a : NDArr)
deriving DecidableEq

/-- SampleCompressedChunk.read_sample: look up the byte range and shape for
the local index, slice the buffer, and for text decompress and decode to
text. In the numeric branch the source computes the decompressed (and, when
cast is requested and dtypes differ, cast) sample and then discards it,
returning np.frombuffer(buffer, self.dtype).reshape(shape) applied to the
still-compressed slice; the model keeps both computations exactly as written.
An out-of-range index or a failing reshape is none. -/
def read_sample (cod : Codec) (c : Chunk) (i : Nat) (cast : Bool) : Option ReadResult :=
  match c.bytePositions[i]?, c.shapesEnc[i]? with
  | some sbeb, some shape =>
    let buffer := (c.dataBytes.take sbeb.2).drop sbeb.1
    if c.cfg.isTextLike then
      let buf := cod.decompressBytes c.cfg.compression buffer
      some (ReadResult.textR (cod.bytesToText c.cfg.htype buf))
    else
      let sample := cod.decompressArr c.cfg.compression buffer shape c.cfg.dtype
      let sample :=
        if cast && decide (sample.dtype ≠ c.cfg.dtype) then cod.astype sample c.cfg.dtype
        else sample
      let _ := sample
      ((npFrombuffer buffer c.cfg.dtype).reshape shape).map ReadResult.arrR
  | _, _ => none

/-- A concrete lossless stand-in codec for the opaque compression collaborator:
compression adds 1 to each byte mod 256, decompression subtracts it. -/
def demoCodec : Codec where
  textToBytes := fun _ _ _ => ([], [1])
  compressBytes := fun _ b => b
  compressArr := fun _ a => a.data.map (fun x => (x + 1) % 256)
  decompressBytes := fun _ b => b
  bytesToText := fun _ _ => ""
  decompressArr := fun _ b sh dt => ⟨sh, dt, b.map (fun x => (x + 255) % 256)⟩
  sampleArray := fun b _ sh => ⟨sh, "uint8", b.map (fun x => (x + 255) % 256)⟩
  intelligentCast := fun a dt _ => ⟨a.shape, dt, a.data⟩
  astype := fun a dt => ⟨a.shape, dt, a.data⟩

def demoCfg : ChunkConfig := ⟨"uint8", "generic", "demo", false, false, 100⟩

def demoChunk : Chunk := ⟨demoCfg, [], [], [], []⟩

def demoArr : NDArr := ⟨[1], "uint8", [5]⟩

def demoSample : SampleValue := SampleValue.arrayV demoArr

/-! ## Chunk-id encoder merge (hub/util/transform.py, merge_chunk_id_encoders) -/

/-- Modelled from the spec: ChunkIdEncoder.num_samples
(hub/core/meta/encode/chunk_id.py, file not in src). Rows are
(chunk id, cumulative last-seen sample index); the total sample count is the
last row's index field plus one, and 0 for an empty encoder. -/
def encNumSamples (rows : List (Nat × Nat)) : Nat :=
  match rows.getLast? with
  | none => 0
  | some r => r.2 + 1

/-- One worker's rows after `encoded_id[1] += offset` on each row. -/
def shiftRows (offset : Nat) (rows : List (Nat × Nat)) : List (Nat × Nat) :=
  rows.map (fun r => (r.1, r.2 + offset))

/-- merge_chunk_id_encoders from hub/util/transform.py, for one tensor: the
running offset starts at the destination encoder's num_samples; each worker's
rows are appended with the offset added to their count field (the reshape /
vstack cases are both plain row appends), and the offset then advances by that
worker's num_samples, read before its rows were adjusted. A worker whose
_encoded_ids is None contributes the empty row list. -/
def merge_chunk_id_encoders (dest : List (Nat × Nat)) (workers : List (List (Nat × Nat))) :
    List (Nat × Nat) :=
  (workers.foldl (fun acc w => (acc.1 ++ shiftRows acc.2 w, acc.2 + encNumSamples w))
    (dest, encNumSamples dest)).1

/-- The rows appended after the destination: each worker's rows shifted by the
running offset. -/
def mergeTailAux : Nat → List (List (Nat × Nat)) → List (Nat × Nat)
  | _, [] => []
  | off, w :: ws => shiftRows off w ++ mergeTailAux (off + encNumSamples w) ws

/-! ## Tensor meta merge (hub/util/transform.py, merge_tensor_metas) -/

/-- TensorMeta fields the merge touches: dtype, length, and the component-wise
shape bounds. -/
structure TensorMeta where
  dtype : Option String
  length : Nat
  max_shape : List Nat
  min_shape : List Nat
deriving DecidableEq

/-- Modelled from the spec: TensorMeta._update_shape_interval
(hub/core/meta/tensor_meta.py, file not in src): widen the running min/max
shape bounds component-wise. -/
def updateShapeInterval (m : TensorMeta) (shape : List Nat) : TensorMeta :=
  { m with
    min_shape := List.zipWith min m.min_shape shape
    max_shape := List.zipWith max m.max_shape shape }

/-- One worker step of merge_tensor_metas from hub/util/transform.py: an empty
destination (no max_shape or no dtype) copies the worker's attributes and
accumulates length; a worker with a nonempty min_shape must match dtype and
rank (the asserts, modeled as none on failure) and then adds its length and
widens the bounds with its max and min shapes; a worker with an empty
min_shape (zero samples) is skipped. -/
def mergeTensorMetaStep (tm cur : TensorMeta) : Option TensorMeta :=
  if tm.max_shape.length = 0 ∨ tm.dtype = none then
    some { dtype := cur.dtype, length := tm.length + cur.length,
           max_shape := cur.max_shape, min_shape := cur.min_shape }
  else if cur.min_shape.length ≠ 0 then
    if tm.dtype = cur.dtype ∧ tm.max_shape.length = cur.max_shape.length ∧
        tm.min_shape.length = cur.min_shape.length then
      some (updateShapeInterval
        (updateShapeInterval { tm with length := tm.length + cur.length } cur.max_shape)
        cur.min_shape)
    else none
  else some tm

/-- merge_tensor_metas for one tensor: fold the worker metas into the
destination meta in worker order. -/
def merge_tensor_metas (dest : TensorMeta) (workers : List TensorMeta) : Option TensorMeta :=
  workers.foldlM mergeTensorMetaStep dest

/-! ## Corner-chunk merge (hub/util/transform.py, merge_chunks) -/

/-- One index-meta entry: the chunks holding the sample and its byte range. -/
structure MetaEntry where
  chunk_names : List String
  start_byte : Nat
  end_byte : Nat
deriving DecidableEq

/-- The storage provider: an association map from keys to chunk bytes. -/
abbrev Storage := List (String × List Nat)

def storageGet (s : Storage) (k : String) : Option (List Nat) :=
  (s.find? (fun kv => kv.1 == k)).map Prod.snd

def storageDel (s : Storage) (k : String) : Storage :=
  s.filter (fun kv => !(kv.1 == k))

def storageSet (s : Storage) (k : String) (v : List Nat) : Storage :=
  (k, v) :: storageDel s k

/-- Modelled from the spec: get_chunk_key (hub/util/keys.py, file not in src);
the chunk object key layout is tensor_key/chunks/hex_chunk_id. -/
def get_chunk_key (tensor name : String) : String :=
  tensor ++ "/chunks/" ++ name

/-- The entry-rewrite loop of merge_chunks: walk entries from the front while
chunk_names equals exactly [first_chunk_name], repointing each to the last
chunk and shifting both byte offsets; stop at the first entry that does not
match (the remaining entries are untouched). -/
def repointEntries (firstName lastName : String) (offset : Nat) :
    List MetaEntry → List MetaEntry
  | [] => []
  | e :: rest =>
    if e.chunk_names = [firstName] then
      ⟨[lastName], e.start_byte + offset, e.end_byte + offset⟩ ::
        repointEntries firstName lastName offset rest
    else e :: rest

/-- merge_chunks from hub/util/transform.py. DEFAULT_MAX_CHUNK_SIZE lives in
hub/constants.py (file not in src) and is passed as the maxChunkSize
parameter. When the guard holds, the two chunk payloads are fetched (a missing
key would raise KeyError, modeled as none), the first chunk's bytes are
appended after the last chunk's, the first chunk object is deleted, the last
chunk object is overwritten, and the leading matching entries are repointed
with offset = last_chunk_size; otherwise nothing happens. -/
def merge_chunks (chunk_min_target maxChunkSize : Nat) (tensor : String) (storage : Storage)
    (entries : List MetaEntry) (first_chunk_name : String) (first_chunk_size : Nat)
    (last_chunk_name : String) (last_chunk_size : Nat) : Option (Storage × List MetaEntry) :=
  if first_chunk_size < chunk_min_target ∧
      first_chunk_size + last_chunk_size ≤ maxChunkSize then
    let first_chunk_key := get_chunk_key tensor first_chunk_name
    let last_chunk_key := get_chunk_key tensor last_chunk_name
    match storageGet storage last_chunk_key, storageGet storage first_chunk_key with
    | some last_chunk_content, some first_chunk_content =>
      let new_chunk := last_chunk_content ++ first_chunk_content
      let storage1 := storageSet (storageDel storage first_chunk_key) last_chunk_key new_chunk
      some (storage1, repointEntries first_chunk_name last_chunk_name last_chunk_size entries)
    | _, _ => none
  else some (storage, entries)

/-! ## Linked video reads (hub/core/linked_chunk_engine.py) -/

/-- The index argument of get_video_sample: either a bare Python int or an
Index object whose values hold the per-dimension selections (each .value
modeled as an Int). -/
inductive PyIndex where
  | intIdx (n : Int)
  | objIdx (values : List Int)
deriving DecidableEq

/-- External collaborators of get_video_sample: the superclass path
resolution, the presigned-url storage handle, _read_video_shape,
normalize_index, and _decompress_video. The creds-encoder lookups select the
storage handle and have no other effect on the returned value. -/
structure VideoEnv where
  samplePath : String
  presignedUrl : String → String
  readVideoShape : String → List Nat
  normalizeIndex : Option Int → Nat → Nat × Nat × Nat × Bool
  decompressVideo : String → Nat × Nat × Nat × Bool → NDArr

/-- ndarray.squeeze(0): drop a leading dimension of extent 1. -/
def npSqueeze0 (a : NDArr) : NDArr :=
  if a.shape.headD 0 = 1 then ⟨a.shape.tail, a.dtype, a.data⟩ else a

/-- LinkedChunkEngine.get_video_sample: resolve the url (presigned for remote
schemes), set squeeze = isinstance(index, int), probe the video shape, read
index.values[1].value as the sub-index — a bare int index has no .values
attribute, so Python raises AttributeError there — normalize the requested
window against the frame count (shape[0], IndexError on an empty shape),
decode only that window, and return it. The source executes
video_sample.squeeze(0) under the squeeze flag but discards its result, which
the model keeps exactly as written. -/
def get_video_sample (env : VideoEnv) (index : PyIndex) : Except String NDArr := do
  let samplePath := env.samplePath
  let url :=
    if samplePath.startsWith "gcs://" || samplePath.startsWith "gcp://"
        || samplePath.startsWith "s3://" then
      env.presignedUrl samplePath
    else samplePath
  let squeeze :=
    match index with
    | .intIdx _ => true
    | .objIdx _ => false
  let shape := env.readVideoShape url
  let subIndex ←
    match index with
    | .intIdx _ => Except.error "AttributeError"
    | .objIdx values => pure (if values.length > 1 then values[1]? else none)
  let frameCount ←
    match shape with
    | [] => Except.error "IndexError"
    | n :: _ => pure n
  let videoSample := env.decompressVideo url (env.normalizeIndex subIndex frameCount)
  if squeeze then
    let _ := npSqueeze0 videoSample
    return videoSample
  else
    return videoSample

/-- A concrete environment: a local 4-frame 2x2 video; the normalizer turns a
scalar sub-index v into the window [v, v+1) and no sub-index into the full
range; the decoder returns the windowed frames. -/
def demoVideoEnv : VideoEnv where
  samplePath := "video.mp4"
  presignedUrl := fun s => s
  readVideoShape := fun _ => [4, 2, 2]
  normalizeIndex := fun sub n =>
    match sub with
    | none => (0, n, 1, false)
    | some v => (v.toNat, v.toNat + 1, 1, false)
  decompressVideo := fun _ w => ⟨[w.2.1 - w.1, 2, 2], "uint8", List.replicate ((w.2.1 - w.1) * 4) 0⟩

/-! ## Theorems: identifier scheme (C6, C7) -/

theorem hexChar_round : ∀ d < 16, isHexChar (hexChar d) = true ∧ hexVal (hexChar d) = d := by
  decide

theorem hexDigitsCore_zero (fuel : Nat) : hexDigitsCore fuel 0 = [] := by
  cases fuel <;> rfl

theorem ofHexLE_hexDigitsCore (fuel : Nat) :
    ∀ n, n ≤ fuel → ofHexLE (hexDigitsCore fuel n) = n := by
  induction fuel with
  | zero =>
    intro n hn
    interval_cases n
    rfl
  | succ fuel ih =>
    intro n hn
    match n with
    | 0 => rfl
    | m + 1 =>
      have hdiv : (m + 1) / 16 ≤ fuel := by
        have h1 : (m + 1) / 16 < m + 1 := Nat.div_lt_self (Nat.succ_pos m) (by omega)
        omega
      show (m + 1) % 16 + 16 * ofHexLE (hexDigitsCore fuel ((m + 1) / 16)) = m + 1
      rw [ih _ hdiv]
      omega

theorem hexDigitsCore_lt (fuel : Nat) :
    ∀ n d, d ∈ hexDigitsCore fuel n → d < 16 := by
  induction fuel with
  | zero => intro n d hd; simp [hexDigitsCore] at hd
  | succ fuel ih =>
    intro n d hd
    match n with
    | 0 => simp [hexDigitsCore] at hd
    | m + 1 =>
      rcases List.mem_cons.mp hd with h | h
      · subst h; exact Nat.mod_lt _ (by omega)
      · exact ih _ _ h

theorem hexDigitsCore_len (k : Nat) :
    ∀ fuel n, n ≤ fuel → 16 ^ k ≤ n → n < 16 ^ (k + 1) →
      (hexDigitsCore fuel n).length = k + 1 := by
  induction k with
  | zero =>
    intro fuel n hfuel h1 h2
    simp only [pow_zero, pow_one] at h1 h2
    obtain ⟨m, rfl⟩ : ∃ m, n = m + 1 := ⟨n - 1, by omega⟩
    obtain ⟨f, rfl⟩ : ∃ f, fuel = f + 1 := ⟨fuel - 1, by omega⟩
    show ((m + 1) % 16 :: hexDigitsCore f ((m + 1) / 16)).length = 1
    have : (m + 1) / 16 = 0 := Nat.div_eq_of_lt h2
    rw [this, hexDigitsCore_zero]
    rfl
  | succ k ih =>
    intro fuel n hfuel h1 h2
    have hn1 : 1 ≤ n := le_trans (Nat.one_le_pow _ _ (by omega)) h1
    obtain ⟨m, rfl⟩ : ∃ m, n = m + 1 := ⟨n - 1, by omega⟩
    obtain ⟨f, rfl⟩ : ∃ f, fuel = f + 1 := ⟨fuel - 1, by omega⟩
    show ((m + 1) % 16 :: hexDigitsCore f ((m + 1) / 16)).length = k + 1 + 1
    have hd1 : 16 ^ k ≤ (m + 1) / 16 := by
      rw [Nat.le_div_iff_mul_le (by omega)]
      calc 16 ^ k * 16 = 16 ^ (k + 1) := by ring
      _ ≤ m + 1 := h1
    have hd2 : (m + 1) / 16 < 16 ^ (k + 1) := by
      rw [Nat.div_lt_iff_lt_mul (by omega)]
      calc m + 1 < 16 ^ (k + 1 + 1) := h2
      _ = 16 ^ (k + 1) * 16 := by ring
    have hdf : (m + 1) / 16 ≤ f := by
      have hlt : (m + 1) / 16 < m + 1 := Nat.div_lt_self (Nat.succ_pos m) (by omega)
      omega
    rw [List.length_cons, ih f _ hdf hd1 hd2]

theorem foldl_hexChar_rev (L : List Nat) (hL : ∀ d ∈ L, d < 16) :
    ∀ acc : Nat,
      ((L.map hexChar).reverse).foldl (fun a c => a * 16 + hexVal c) acc
        = acc * 16 ^ L.length + ofHexLE L := by
  induction L with
  | nil => intro acc; simp [ofHexLE]
  | cons d T ih =>
    intro acc
    have hd : d < 16 := hL d (List.mem_cons_self d T)
    have hT : ∀ x ∈ T, x < 16 := fun x hx => hL x (List.mem_cons_of_mem _ hx)
    show ((hexChar d :: T.map hexChar).reverse).foldl (fun a c => a * 16 + hexVal c) acc
      = acc * 16 ^ (T.length + 1) + ofHexLE (d :: T)
    rw [List.reverse_cons, List.foldl_append, ih hT acc]
    show (acc * 16 ^ T.length + ofHexLE T) * 16 + hexVal (hexChar d)
      = acc * 16 ^ (T.length + 1) + ofHexLE (d :: T)
    rw [(hexChar_round d hd).2]
    show (acc * 16 ^ T.length + ofHexLE T) * 16 + d
      = acc * 16 ^ (T.length + 1) + (d + 16 * ofHexLE T)
    ring

theorem mem_hexStringChars_hex (n : Nat) : ∀ c ∈ hexStringChars n, isHexChar c = true := by
  intro c hc
  unfold hexStringChars at hc
  by_cases h : n = 0
  · rw [if_pos h] at hc
    simp at hc
    subst hc
    decide
  · rw [if_neg h] at hc
    rw [List.mem_reverse, List.mem_map] at hc
    obtain ⟨d, hd, hcd⟩ := hc
    subst hcd
    exact (hexChar_round d (hexDigitsCore_lt n n d hd)).1

theorem hexStringChars_ne_nil (n : Nat) : hexStringChars n ≠ [] := by
  unfold hexStringChars
  by_cases h : n = 0
  · rw [if_pos h]; simp
  · rw [if_neg h]
    simp only [ne_eq, List.reverse_eq_nil_iff, List.map_eq_nil_iff]
    match n, h with
    | m + 1, _ =>
      show hexDigitsCore (m + 1) (m + 1) ≠ []
      simp [hexDigitsCore]

theorem parse_hexStringChars (n : Nat) :
    (hexStringChars n).foldl (fun a c => a * 16 + hexVal c) 0 = n := by
  unfold hexStringChars
  by_cases h : n = 0
  · rw [if_pos h, h]; decide
  · rw [if_neg h]
    rw [foldl_hexChar_rev (hexDigitsLE n) (hexDigitsCore_lt n n)]
    have hLE : hexDigitsLE n = hexDigitsCore n n := rfl
    rw [hLE, ofHexLE_hexDigitsCore n n le_rfl]
    simp

/-- C6: for every chunk identifier id, the chunk name hex(id)[2:] produced by
chunk_name_from_id is parsed back to id by chunk_id_from_name, so
chunk_id_from_name (chunk_name_from_id id) = id. -/
theorem chunk_id_roundtrip_C6 (id : Nat) :
    chunk_id_from_name (chunk_name_from_id id) = some id := by
  have hdata : ("0x" ++ chunk_name_from_id id).data = '0' :: 'x' :: hexStringChars id := rfl
  unfold chunk_id_from_name pyIntHex
  rw [hdata]
  have htake : ('0' :: 'x' :: hexStringChars id).take 2 = ['0', 'x'] := rfl
  rw [if_pos htake]
  have hdrop : ('0' :: 'x' :: hexStringChars id).drop 2 = hexStringChars id := rfl
  rw [hdrop]
  have hall : (hexStringChars id).all isHexChar = true := by
    rw [List.all_eq_true]
    exact fun c hc => mem_hexStringChars_hex id c hc
  rw [if_pos ⟨hexStringChars_ne_nil id, hall⟩]
  exact congrArg some (parse_hexStringChars id)

theorem foldl_zeros (k : Nat) :
    ∀ acc : Nat,
      (List.replicate k '0').foldl (fun a c => a * 16 + hexVal c) acc = acc * 16 ^ k := by
  induction k with
  | zero => intro acc; simp
  | succ k ih =>
    intro acc
    rw [List.replicate_succ, List.foldl_cons]
    have hv0 : hexVal '0' = 0 := by decide
    have h0 : acc * 16 + hexVal '0' = acc * 16 := by rw [hv0]; omega
    rw [h0, ih (acc * 16)]
    ring

/-- C7 counterexample: the claim fails as stated. The 128-bit value u0 below is
a value uuid4() can return (version 4, variant 10), random_chunk_id maps it to
the identifier 1, whose hex name "1" padded with 24 zero characters has only
25 hex digits — not a well-formed 128-bit (32 hex digit) representation — so
the UUID reconstruction in chunk_uuid_from_id fails. -/
theorem chunk_uuid_pad_C7_counterexample :
    isUuid4Shaped (2 ^ 96 + 4 * 2 ^ 76 + 2 * 2 ^ 62) ∧
      chunk_uuid_from_id (random_chunk_id (2 ^ 96 + 4 * 2 ^ 76 + 2 * 2 ^ 62)) = none := by
  constructor
  · refine ⟨by norm_num, by decide, by decide⟩
  · decide

/-- C7 amended: for every identifier produced by random_chunk_id whose hex name
has the full 8 digits (that is, 2^28 ≤ id, which holds for all but 1/16 of the
identifier space), the 24-character pad yields a well-formed 32-hex-digit
string and chunk_uuid_from_id succeeds, reconstructing the 128-bit value
id * 2^96; for smaller identifiers the padded string is shorter than 32 hex
digits and the reconstruction fails (see the counterexample). -/
theorem chunk_uuid_pad_C7_amended (u : Nat) (h : 2 ^ 28 ≤ random_chunk_id u) :
    chunk_uuid_from_id (random_chunk_id u) = some (random_chunk_id u * 2 ^ 96) := by
  set id := random_chunk_id u with hiddef
  have hlt : id < 2 ^ 32 := Nat.mod_lt _ (by norm_num)
  have hne : id ≠ 0 := by
    intro h0
    rw [h0] at h
    exact absurd h (by norm_num)
  have hlen : (hexDigitsLE id).length = 8 := by
    have h7 : (16 : Nat) ^ 7 ≤ id := by
      calc (16 : Nat) ^ 7 = 2 ^ 28 := by norm_num
      _ ≤ id := h
    have h8 : id < 16 ^ (7 + 1) := by
      calc id < 2 ^ 32 := hlt
      _ = 16 ^ (7 + 1) := by norm_num
    exact hexDigitsCore_len 7 id id le_rfl h7 h8
  have hdata : (chunk_name_from_id id ++ String.mk (List.replicate 24 '0')).data
      = hexStringChars id ++ List.replicate 24 '0' := rfl
  have hsc : hexStringChars id = ((hexDigitsLE id).map hexChar).reverse := by
    unfold hexStringChars
    rw [if_neg hne]
  have hlen32 : (hexStringChars id ++ List.replicate 24 '0').length = 32 := by
    rw [List.length_append, hsc, List.length_reverse, List.length_map, hlen,
      List.length_replicate]
  have hall : (hexStringChars id ++ List.replicate 24 '0').all isHexChar = true := by
    rw [List.all_eq_true]
    intro c hc
    rcases List.mem_append.mp hc with h1 | h1
    · exact mem_hexStringChars_hex id c h1
    · rw [List.eq_of_mem_replicate h1]; decide
  simp only [chunk_uuid_from_id, uuidFromHex]
  rw [hdata, if_pos ⟨hlen32, hall⟩, List.foldl_append, parse_hexStringChars id,
    foldl_zeros 24 id]
  norm_num

theorem chunk_uuid_pad_C7_witness :
    chunk_uuid_from_id (random_chunk_id (2 ^ 127)) = some (random_chunk_id (2 ^ 127) * 2 ^ 96) :=
  chunk_uuid_pad_C7_amended (2 ^ 127) (by decide)

/-! ## Theorems: sample-compressed chunk (C1, C2, C3) -/

theorem registerSampleToHeaders_cfg (c : Chunk) (n : Nat) (sh : List Nat) :
    (registerSampleToHeaders c n sh).cfg = c.cfg := rfl

theorem extendLoop_capacity (cod : Codec) (samples : List SampleValue) :
    ∀ c : Chunk, c.dataBytes.length ≤ c.cfg.maxChunkSize →
      (extendLoop cod c samples).2.1.cfg = c.cfg ∧
      (extendLoop cod c samples).2.1.dataBytes.length ≤ c.cfg.maxChunkSize ∧
      (extendLoop cod c samples).2.1.bytePositions.length
        = c.bytePositions.length + (extendLoop cod c samples).1 ∧
      (extendLoop cod c samples).2.1.shapesEnc.length
        = c.shapesEnc.length + (extendLoop cod c samples).1 := by
  induction samples with
  | nil =>
    intro c hc
    exact ⟨rfl, hc, rfl, rfl⟩
  | cons s rest ih =>
    intro c hc
    by_cases h : c.dataBytes.length + (serialize_sample cod c.cfg s).1.length >
        c.cfg.maxChunkSize
    · have he : extendLoop cod c (s :: rest)
          = (0, c, SampleValue.sampleV (PySample.ofBuffer (serialize_sample cod c.cfg s).1
              c.cfg.compression (serialize_sample cod c.cfg s).2) :: rest) := by
        simp only [extendLoop, if_pos h]
      rw [he]
      exact ⟨rfl, hc, rfl, rfl⟩
    · have hfit : c.dataBytes.length + (serialize_sample cod c.cfg s).1.length ≤
          c.cfg.maxChunkSize := Nat.le_of_not_lt h
      have he : extendLoop cod c (s :: rest)
          = ((extendLoop cod (registerSampleToHeaders
                { c with dataBytes := c.dataBytes ++ (serialize_sample cod c.cfg s).1,
                         shapes := c.shapes ++ [(serialize_sample cod c.cfg s).2] }
                (serialize_sample cod c.cfg s).1.length (serialize_sample cod c.cfg s).2)
                rest).1 + 1,
             (extendLoop cod (registerSampleToHeaders
                { c with dataBytes := c.dataBytes ++ (serialize_sample cod c.cfg s).1,
                         shapes := c.shapes ++ [(serialize_sample cod c.cfg s).2] }
                (serialize_sample cod c.cfg s).1.length (serialize_sample cod c.cfg s).2)
                rest).2.1,
             SampleValue.sampleV (PySample.ofBuffer (serialize_sample cod c.cfg s).1
               c.cfg.compression (serialize_sample cod c.cfg s).2)
               :: (extendLoop cod (registerSampleToHeaders
                { c with dataBytes := c.dataBytes ++ (serialize_sample cod c.cfg s).1,
                         shapes := c.shapes ++ [(serialize_sample cod c.cfg s).2] }
                (serialize_sample cod c.cfg s).1.length (serialize_sample cod c.cfg s).2)
                rest).2.2) := by
        simp only [extendLoop, if_neg h]
      set c2 := registerSampleToHeaders
        { c with dataBytes := c.dataBytes ++ (serialize_sample cod c.cfg s).1,
                 shapes := c.shapes ++ [(serialize_sample cod c.cfg s).2] }
        (serialize_sample cod c.cfg s).1.length (serialize_sample cod c.cfg s).2 with hc2
      rw [he]
      have hcfg : c2.cfg = c.cfg := rfl
      have hdb : c2.dataBytes.length = c.dataBytes.length +
          (serialize_sample cod c.cfg s).1.length := by
        rw [hc2]
        simp [registerSampleToHeaders]
      have hbp : c2.bytePositions.length = c.bytePositions.length + 1 := by
        rw [hc2]
        simp [registerSampleToHeaders]
      have hse : c2.shapesEnc.length = c.shapesEnc.length + 1 := by
        rw [hc2]
        simp [registerSampleToHeaders]
      have hc2cap : c2.dataBytes.length ≤ c2.cfg.maxChunkSize := by
        rw [hdb, hcfg]
        exact hfit
      obtain ⟨ih1, ih2, ih3, ih4⟩ := ih c2 hc2cap
      refine ⟨by rw [ih1, hcfg], ?_, ?_, ?_⟩
      · rw [hcfg] at ih2
        exact ih2
      · rw [ih3, hbp]
        omega
      · rw [ih4, hse]
        omega

/-- C2: extend_if_has_space never accepts a sample that would push the chunk's
used byte count above max_chunk_size — if the chunk was within capacity
before, it is after — and the returned accepted count is exactly the number of
samples the call recorded in the byte-range and shape headers. -/
theorem extend_capacity_C2 (cod : Codec) (c : Chunk) (samples : List SampleValue)
    (h : c.dataBytes.length ≤ c.cfg.maxChunkSize) :
    (extend_if_has_space cod c samples).2.1.dataBytes.length ≤ c.cfg.maxChunkSize ∧
    (extend_if_has_space cod c samples).2.1.bytePositions.length
      = c.bytePositions.length + (extend_if_has_space cod c samples).1 ∧
    (extend_if_has_space cod c samples).2.1.shapesEnc.length
      = c.shapesEnc.length + (extend_if_has_space cod c samples).1 :=
  (extendLoop_capacity cod samples c h).2

theorem extend_capacity_C2_witness :
    (extend_if_has_space demoCodec demoChunk [demoSample]).2.1.dataBytes.length ≤ 100 ∧
    (extend_if_has_space demoCodec demoChunk [demoSample]).2.1.bytePositions.length
      = 0 + (extend_if_has_space demoCodec demoChunk [demoSample]).1 ∧
    (extend_if_has_space demoCodec demoChunk [demoSample]).2.1.shapesEnc.length
      = 0 + (extend_if_has_space demoCodec demoChunk [demoSample]).1 :=
  extend_capacity_C2 demoCodec demoChunk [demoSample] (by decide)

theorem normalizeShape_idem (sh : List Nat) :
    normalizeShape (normalizeShape sh) = normalizeShape sh := by
  unfold normalizeShape
  by_cases h : sh.length = 0
  · rw [if_pos h]
    rfl
  · rw [if_neg h, if_neg h]

theorem serialize_sample_snd_normalized (cod : Codec) (cfg : ChunkConfig) (s : SampleValue) :
    normalizeShape (serialize_sample cod cfg s).2 = (serialize_sample cod cfg s).2 := by
  unfold serialize_sample
  exact normalizeShape_idem _

theorem extendLoop_rewrites (cod : Codec) (samples : List SampleValue) :
    ∀ c : Chunk,
      (extendLoop cod c samples).2.2
        = (samples.take (min ((extendLoop cod c samples).1 + 1) samples.length)).map
            (wrapSerialized cod c.cfg)
          ++ samples.drop (min ((extendLoop cod c samples).1 + 1) samples.length) := by
  induction samples with
  | nil => intro c; rfl
  | cons s rest ih =>
    intro c
    by_cases h : c.dataBytes.length + (serialize_sample cod c.cfg s).1.length >
        c.cfg.maxChunkSize
    · have he : extendLoop cod c (s :: rest)
          = (0, c, SampleValue.sampleV (PySample.ofBuffer (serialize_sample cod c.cfg s).1
              c.cfg.compression (serialize_sample cod c.cfg s).2) :: rest) := by
        simp only [extendLoop, if_pos h]
      rw [he]
      have hmin : min (0 + 1) (s :: rest).length = 1 := by
        simp only [List.length_cons]
        omega
      rw [hmin]
      rfl
    · have he : extendLoop cod c (s :: rest)
          = ((extendLoop cod (registerSampleToHeaders
                { c with dataBytes := c.dataBytes ++ (serialize_sample cod c.cfg s).1,
                         shapes := c.shapes ++ [(serialize_sample cod c.cfg s).2] }
                (serialize_sample cod c.cfg s).1.length (serialize_sample cod c.cfg s).2)
                rest).1 + 1,
             (extendLoop cod (registerSampleToHeaders
                { c with dataBytes := c.dataBytes ++ (serialize_sample cod c.cfg s).1,
                         shapes := c.shapes ++ [(serialize_sample cod c.cfg s).2] }
                (serialize_sample cod c.cfg s).1.length (serialize_sample cod c.cfg s).2)
                rest).2.1,
             SampleValue.sampleV (PySample.ofBuffer (serialize_sample cod c.cfg s).1
               c.cfg.compression (serialize_sample cod c.cfg s).2)
               :: (extendLoop cod (registerSampleToHeaders
                { c with dataBytes := c.dataBytes ++ (serialize_sample cod c.cfg s).1,
                         shapes := c.shapes ++ [(serialize_sample cod c.cfg s).2] }
                (serialize_sample cod c.cfg s).1.length (serialize_sample cod c.cfg s).2)
                rest).2.2) := by
        simp only [extendLoop, if_neg h]
      set c2 := registerSampleToHeaders
        { c with dataBytes := c.dataBytes ++ (serialize_sample cod c.cfg s).1,
                 shapes := c.shapes ++ [(serialize_sample cod c.cfg s).2] }
        (serialize_sample cod c.cfg s).1.length (serialize_sample cod c.cfg s).2 with hc2
      rw [he]
      have hcfg : c2.cfg = c.cfg := rfl
      have hrec := ih c2
      rw [hcfg] at hrec
      show SampleValue.sampleV (PySample.ofBuffer (serialize_sample cod c.cfg s).1
          c.cfg.compression (serialize_sample cod c.cfg s).2)
            :: (extendLoop cod c2 rest).2.2
        = ((s :: rest).take (min ((extendLoop cod c2 rest).1 + 1 + 1)
            (s :: rest).length)).map (wrapSerialized cod c.cfg)
          ++ (s :: rest).drop (min ((extendLoop cod c2 rest).1 + 1 + 1) (s :: rest).length)
      have hmin : min ((extendLoop cod c2 rest).1 + 1 + 1) (s :: rest).length
          = min ((extendLoop cod c2 rest).1 + 1) rest.length + 1 := by
        simp only [List.length_cons]
        omega
      rw [hmin, List.take_succ_cons, List.drop_succ_cons, List.map_cons, hrec]
      rfl

/-- C3: extend_if_has_space rewrites every visited sample — the accepted ones
and the first rejected one — in the caller's list as an already-serialized
Sample wrapper carrying the serialized bytes, the chunk's compression, and the
recorded shape, leaving the unvisited suffix untouched; and serializing such a
wrapper against a second chunk with the same compression returns the stored
bytes byte-for-byte: directly via the matching-compression short-circuit of
Sample.compressed_bytes when the codec is dtype-aware (not a byte-level
codec), and for a byte-level codec via its decode-cast-recompress path
whenever that collaborator composite reproduces the payload (the lossless
round-trip law). -/
theorem extend_rewrites_memoizes_C3 (cod : Codec) (c : Chunk) (samples : List SampleValue) :
    ((extend_if_has_space cod c samples).2.2
        = (samples.take (min ((extend_if_has_space cod c samples).1 + 1) samples.length)).map
            (wrapSerialized cod c.cfg)
          ++ samples.drop (min ((extend_if_has_space cod c samples).1 + 1) samples.length)) ∧
    (∀ cfg2 s2, cfg2.isTextLike = false → cfg2.isByteCompression = false →
        cfg2.compression = c.cfg.compression →
        serialize_sample cod cfg2 (wrapSerialized cod c.cfg s2)
          = serialize_sample cod c.cfg s2) ∧
    (∀ cfg2 s2, cfg2.isTextLike = false → cfg2.isByteCompression = true →
        cfg2.compression = c.cfg.compression →
        cod.compressArr cfg2.compression (cod.intelligentCast
            (cod.sampleArray (serialize_sample cod c.cfg s2).1 c.cfg.compression
              (serialize_sample cod c.cfg s2).2) cfg2.dtype cfg2.htype)
          = (serialize_sample cod c.cfg s2).1 →
        serialize_sample cod cfg2 (wrapSerialized cod c.cfg s2)
          = serialize_sample cod c.cfg s2) := by
  refine ⟨extendLoop_rewrites cod samples c, ?_, ?_⟩
  · intro cfg2 s2 ht hb hcomp
    show serialize_sample cod cfg2 (SampleValue.sampleV (PySample.ofBuffer
        (serialize_sample cod c.cfg s2).1 c.cfg.compression (serialize_sample cod c.cfg s2).2))
      = serialize_sample cod c.cfg s2
    set p := serialize_sample cod c.cfg s2 with hp
    have hnorm : normalizeShape p.2 = p.2 := by
      rw [hp]
      exact serialize_sample_snd_normalized cod c.cfg s2
    simp [serialize_sample, PySample.compressedBytes, PySample.pyshape, ht, hb, hcomp, hnorm]
  · intro cfg2 s2 ht hb hcomp hlaw
    rw [hcomp] at hlaw
    show serialize_sample cod cfg2 (SampleValue.sampleV (PySample.ofBuffer
        (serialize_sample cod c.cfg s2).1 c.cfg.compression (serialize_sample cod c.cfg s2).2))
      = serialize_sample cod c.cfg s2
    set p := serialize_sample cod c.cfg s2 with hp
    have hnorm : normalizeShape p.2 = p.2 := by
      rw [hp]
      exact serialize_sample_snd_normalized cod c.cfg s2
    simp [serialize_sample, PySample.compressedBytes, PySample.pyshape, PySample.arr,
      ht, hb, hcomp, hnorm, hlaw]

theorem extend_rewrites_memoizes_C3_witness :
    (extend_if_has_space demoCodec demoChunk [demoSample]).2.2
        = [wrapSerialized demoCodec demoCfg demoSample] ∧
    serialize_sample demoCodec demoCfg (wrapSerialized demoCodec demoCfg demoSample)
      = serialize_sample demoCodec demoCfg demoSample :=
  ⟨(extend_rewrites_memoizes_C3 demoCodec demoChunk [demoSample]).1,
   (extend_rewrites_memoizes_C3 demoCodec demoChunk [demoSample]).2.1 demoCfg demoSample
     rfl rfl rfl⟩

/-- C1: the round-trip claim is the documented intent — the source even
computes the decompressed, cast sample — but read_sample then discards that
value and returns np.frombuffer(buffer, self.dtype).reshape(shape) applied to
the still-compressed slice. Concretely: append the uint8 array [5] of shape
[1] to an empty sample-compressed chunk whose (lossless) codec maps byte b to
b + 1; extend_if_has_space stores the compressed payload [6]; read_sample at
local index 0 computes the correct decompressed array [5] (third conjunct,
the value the source throws away) yet returns the raw reinterpretation [6],
which differs from the appended sample. -/
theorem read_sample_raw_reinterpret_C1 :
    (extend_if_has_space demoCodec demoChunk [demoSample]).1 = 1 ∧
    read_sample demoCodec (extend_if_has_space demoCodec demoChunk [demoSample]).2.1 0 true
      = some (ReadResult.arrR ⟨[1], "uint8", [6]⟩) ∧
    demoCodec.decompressArr "demo" [6] [1] "uint8" = demoArr ∧
    (⟨[1], "uint8", [6]⟩ : NDArr) ≠ demoArr := by
  refine ⟨rfl, rfl, rfl, by decide⟩

/-! ## Theorems: chunk-id encoder merge (C4) -/

theorem merge_foldl_eq (ws : List (List (Nat × Nat))) :
    ∀ (dest : List (Nat × Nat)) (off : Nat),
      (ws.foldl (fun acc w => (acc.1 ++ shiftRows acc.2 w, acc.2 + encNumSamples w))
        (dest, off)).1
        = dest ++ mergeTailAux off ws := by
  induction ws with
  | nil => intro dest off; simp [mergeTailAux]
  | cons w ws ih =>
    intro dest off
    rw [List.foldl_cons]
    show (ws.foldl (fun acc w => (acc.1 ++ shiftRows acc.2 w, acc.2 + encNumSamples w))
        (dest ++ shiftRows off w, off + encNumSamples w)).1
      = dest ++ mergeTailAux off (w :: ws)
    rw [ih (dest ++ shiftRows off w) (off + encNumSamples w)]
    show dest ++ shiftRows off w ++ mergeTailAux (off + encNumSamples w) ws
      = dest ++ (shiftRows off w ++ mergeTailAux (off + encNumSamples w) ws)
    rw [List.append_assoc]

theorem shiftRows_length (off : Nat) (rows : List (Nat × Nat)) :
    (shiftRows off rows).length = rows.length := by
  simp [shiftRows]

theorem mergeTailAux_get (i : Nat) :
    ∀ (ws : List (List (Nat × Nat))) (off j : Nat) (hi : i < ws.length)
      (hj : j < ws[i].length),
      (mergeTailAux off ws)[((ws.take i).map List.length).sum + j]?
        = some ((ws[i][j]).1,
            (ws[i][j]).2 + (off + ((ws.take i).map encNumSamples).sum)) := by
  induction i with
  | zero =>
    intro ws off j hi hj
    match ws, hi, hj with
    | w :: rest, _, hj =>
      show (shiftRows off w ++ mergeTailAux (off + encNumSamples w) rest)[
          (((w :: rest).take 0).map List.length).sum + j]? = _
      have hidx : (((w :: rest).take 0).map List.length).sum + j = j := by simp
      rw [hidx]
      have hjs : j < (shiftRows off w).length := by
        rw [shiftRows_length]
        exact hj
      rw [List.getElem?_append, if_pos hjs]
      show (w.map (fun r => (r.1, r.2 + off)))[j]? = _
      rw [List.getElem?_map]
      have hw : w[j]? = some w[j] := List.getElem?_eq_getElem hj
      rw [hw]
      simp
  | succ i ih =>
    intro ws off j hi hj
    match ws, hi, hj with
    | w :: rest, hi, hj =>
      have hi2 : i < rest.length := by
        simpa using hi
      have hj2 : j < rest[i].length := by
        simpa using hj
      have key := ih rest (off + encNumSamples w) j hi2 hj2
      show (shiftRows off w ++ mergeTailAux (off + encNumSamples w) rest)[
          (((w :: rest).take (i + 1)).map List.length).sum + j]? = _
      have hidx : (((w :: rest).take (i + 1)).map List.length).sum + j
          = (shiftRows off w).length + (((rest.take i).map List.length).sum + j) := by
        rw [shiftRows_length]
        simp [List.take_succ_cons]
        omega
      rw [hidx, List.getElem?_append_right (Nat.le_add_right _ _), Nat.add_sub_cancel_left,
        key]
      have hsum : (((w :: rest).take (i + 1)).map encNumSamples).sum
          = encNumSamples w + ((rest.take i).map encNumSamples).sum := by
        simp [List.take_succ_cons]
      have hgetsnd : (w :: rest)[i + 1][j].2 = rest[i][j].2 := rfl
      simp only [Option.some.injEq, Prod.mk.injEq]
      exact ⟨rfl, by omega⟩

/-- C4: merging the workers' chunk-id encoders starts the running offset at the
destination encoder's current total sample count, keeps the destination rows
as the prefix, and places the j-th row of worker i in order with its
cumulative-sample-count field increased by the destination total plus the
sample counts n_1 + ... + n_(i-1) of the preceding workers, so that row
reports the global cumulative count for that sample. -/
theorem merge_encoder_offsets_C4 (dest : List (Nat × Nat)) (ws : List (List (Nat × Nat)))
    (i j : Nat) (hi : i < ws.length) (hj : j < ws[i].length) :
    (merge_chunk_id_encoders dest ws).take dest.length = dest ∧
    (merge_chunk_id_encoders dest ws)[dest.length + ((ws.take i).map List.length).sum + j]?
      = some ((ws[i][j]).1,
          (ws[i][j]).2 + (encNumSamples dest + ((ws.take i).map encNumSamples).sum)) := by
  have hm : merge_chunk_id_encoders dest ws = dest ++ mergeTailAux (encNumSamples dest) ws :=
    merge_foldl_eq ws dest (encNumSamples dest)
  constructor
  · rw [hm]
    exact List.take_left dest _
  · rw [hm, Nat.add_assoc, List.getElem?_append_right (Nat.le_add_right _ _),
      Nat.add_sub_cancel_left]
    exact mergeTailAux_get i ws (encNumSamples dest) j hi hj

theorem merge_encoder_offsets_C4_witness :
    (merge_chunk_id_encoders [(10, 2)] [[(20, 1)], [(30, 0), (31, 2)]]).take 1 = [(10, 2)] ∧
    (merge_chunk_id_encoders [(10, 2)] [[(20, 1)], [(30, 0), (31, 2)]])[3]? = some (31, 7) :=
  merge_encoder_offsets_C4 [(10, 2)] [[(20, 1)], [(30, 0), (31, 2)]] 1 1 (by decide) (by decide)

/-! ## Theorems: tensor meta merge (C9) -/

/-- C9: merging the two workers' tensor metas {dtype uint8, length 5, shape
bounds [2,2]..[2,2]} and {length 0, no samples} into an empty destination
yields {dtype uint8, length 5, shape bounds [2,2]..[2,2]}: the empty worker's
min-shape vector is empty, so it is skipped and contributes nothing to the
length or the shape bounds. -/
theorem merge_tensor_metas_empty_worker_C9 :
    merge_tensor_metas ⟨none, 0, [], []⟩
        [⟨some "uint8", 5, [2, 2], [2, 2]⟩, ⟨none, 0, [], []⟩]
      = some ⟨some "uint8", 5, [2, 2], [2, 2]⟩ := rfl

/-! ## Theorems: corner-chunk merge (C5, C10) -/

theorem storageGet_set_self (s : Storage) (k : String) (v : List Nat) :
    storageGet (storageSet s k v) k = some v := by
  unfold storageGet storageSet
  rw [List.find?_cons_of_pos _ (by simp)]
  rfl

theorem find?_filter_self (t : List (String × List Nat)) (k : String) :
    List.find? (fun kv => kv.1 == k) (List.filter (fun kv => !(kv.1 == k)) t) = none := by
  induction t with
  | nil => rfl
  | cons kv t ih =>
    rw [List.filter_cons]
    by_cases hk : kv.1 = k
    · rw [if_neg (by simp [hk])]
      exact ih
    · rw [if_pos (by simp [hk])]
      rw [List.find?_cons_of_neg _ (by simp [hk])]
      exact ih

theorem find?_filter_ne (t : List (String × List Nat)) (k k2 : String) (h : k2 ≠ k) :
    List.find? (fun kv => kv.1 == k2) (List.filter (fun kv => !(kv.1 == k)) t)
      = List.find? (fun kv => kv.1 == k2) t := by
  induction t with
  | nil => rfl
  | cons kv t ih =>
    rw [List.filter_cons]
    by_cases hk : kv.1 = k
    · rw [if_neg (by simp [hk])]
      rw [ih]
      rw [List.find?_cons_of_neg _ (by simp only [beq_iff_eq, hk]; exact fun hc => h hc.symm)]
    · rw [if_pos (by simp [hk])]
      by_cases hk2 : kv.1 = k2
      · rw [List.find?_cons_of_pos _ (by simp [hk2]), List.find?_cons_of_pos _ (by simp [hk2])]
      · rw [List.find?_cons_of_neg _ (by simp [hk2]), List.find?_cons_of_neg _ (by simp [hk2]),
          ih]

theorem storageGet_del_self (s : Storage) (k : String) :
    storageGet (storageDel s k) k = none := by
  unfold storageGet storageDel
  rw [find?_filter_self]
  rfl

theorem storageGet_del_other (s : Storage) (k k2 : String) (h : k2 ≠ k) :
    storageGet (storageDel s k) k2 = storageGet s k2 := by
  unfold storageGet storageDel
  rw [find?_filter_ne s k k2 h]

theorem storageGet_set_other (s : Storage) (k k2 : String) (v : List Nat) (h : k2 ≠ k) :
    storageGet (storageSet s k v) k2 = storageGet s k2 := by
  unfold storageGet storageSet storageDel
  rw [List.find?_cons_of_neg _ (by simp only [beq_iff_eq]; exact fun hc => h hc.symm)]
  rw [find?_filter_ne s k k2 h]

theorem repointEntries_eq (fn ln : String) (off : Nat) (es : List MetaEntry) :
    repointEntries fn ln off es
      = (es.takeWhile (fun e => decide (e.chunk_names = [fn]))).map
          (fun e => ⟨[ln], e.start_byte + off, e.end_byte + off⟩)
        ++ es.dropWhile (fun e => decide (e.chunk_names = [fn])) := by
  induction es with
  | nil => rfl
  | cons e rest ih =>
    by_cases h : e.chunk_names = [fn]
    · simp [repointEntries, List.takeWhile_cons, List.dropWhile_cons, h, ih]
    · simp [repointEntries, List.takeWhile_cons, List.dropWhile_cons, h]

/-- C5: for corner chunks with first-chunk size f and last-chunk size l with
f < chunk_min_target and f + l within the maximum chunk capacity, merge_chunks
leaves exactly one stored chunk object where there were two — the surviving
last-chunk object holds last_chunk_bytes ++ first_chunk_bytes, the first
chunk's storage object is deleted, every other key is untouched — and every
contiguous leading metadata entry whose chunk_names equal exactly
[first_chunk_name] is repointed to the last chunk with start_byte and end_byte
each shifted by l, stopping at the first entry that does not match. -/
theorem merge_chunks_corner_C5 (target maxCS : Nat) (tensor : String) (storage : Storage)
    (entries : List MetaEntry) (fname lname : String) (f l : Nat)
    (firstC lastC : List Nat)
    (hf : f < target) (hfl : f + l ≤ maxCS)
    (hne : get_chunk_key tensor fname ≠ get_chunk_key tensor lname)
    (hfirst : storageGet storage (get_chunk_key tensor fname) = some firstC)
    (hlast : storageGet storage (get_chunk_key tensor lname) = some lastC) :
    merge_chunks target maxCS tensor storage entries fname f lname l
      = some (storageSet (storageDel storage (get_chunk_key tensor fname))
                (get_chunk_key tensor lname) (lastC ++ firstC),
              (entries.takeWhile (fun e => decide (e.chunk_names = [fname]))).map
                  (fun e => ⟨[lname], e.start_byte + l, e.end_byte + l⟩)
                ++ entries.dropWhile (fun e => decide (e.chunk_names = [fname]))) ∧
    storageGet (storageSet (storageDel storage (get_chunk_key tensor fname))
        (get_chunk_key tensor lname) (lastC ++ firstC)) (get_chunk_key tensor fname) = none ∧
    storageGet (storageSet (storageDel storage (get_chunk_key tensor fname))
        (get_chunk_key tensor lname) (lastC ++ firstC)) (get_chunk_key tensor lname)
      = some (lastC ++ firstC) ∧
    ∀ k2, k2 ≠ get_chunk_key tensor fname → k2 ≠ get_chunk_key tensor lname →
      storageGet (storageSet (storageDel storage (get_chunk_key tensor fname))
          (get_chunk_key tensor lname) (lastC ++ firstC)) k2
        = storageGet storage k2 := by
  refine ⟨?_, ?_, storageGet_set_self _ _ _, ?_⟩
  · simp only [merge_chunks]
    rw [if_pos ⟨hf, hfl⟩]
    rw [hlast, hfirst]
    show some (storageSet (storageDel storage (get_chunk_key tensor fname))
        (get_chunk_key tensor lname) (lastC ++ firstC),
        repointEntries fname lname l entries) = _
    rw [repointEntries_eq]
  · rw [storageGet_set_other _ _ _ _ hne]
    exact storageGet_del_self storage _
  · intro k2 h2f h2l
    rw [storageGet_set_other _ _ _ _ h2l]
    exact storageGet_del_other storage _ k2 h2f

theorem merge_chunks_corner_C5_witness :
    merge_chunks 5 10 "t" [("t/chunks/aa", [7]), ("t/chunks/bb", [8, 9])]
        [⟨["aa"], 0, 1⟩, ⟨["cc"], 0, 3⟩] "aa" 1 "bb" 2
      = some (storageSet (storageDel [("t/chunks/aa", [7]), ("t/chunks/bb", [8, 9])]
                (get_chunk_key "t" "aa")) (get_chunk_key "t" "bb") [8, 9, 7],
              [⟨["bb"], 2, 3⟩, ⟨["cc"], 0, 3⟩]) ∧
    storageGet (storageSet (storageDel [("t/chunks/aa", [7]), ("t/chunks/bb", [8, 9])]
        (get_chunk_key "t" "aa")) (get_chunk_key "t" "bb") [8, 9, 7])
        (get_chunk_key "t" "aa") = none ∧
    storageGet (storageSet (storageDel [("t/chunks/aa", [7]), ("t/chunks/bb", [8, 9])]
        (get_chunk_key "t" "aa")) (get_chunk_key "t" "bb") [8, 9, 7])
        (get_chunk_key "t" "bb") = some [8, 9, 7] ∧
    ∀ k2, k2 ≠ get_chunk_key "t" "aa" → k2 ≠ get_chunk_key "t" "bb" →
      storageGet (storageSet (storageDel [("t/chunks/aa", [7]), ("t/chunks/bb", [8, 9])]
          (get_chunk_key "t" "aa")) (get_chunk_key "t" "bb") [8, 9, 7]) k2
        = storageGet [("t/chunks/aa", [7]), ("t/chunks/bb", [8, 9])] k2 :=
  merge_chunks_corner_C5 5 10 "t" [("t/chunks/aa", [7]), ("t/chunks/bb", [8, 9])]
    [⟨["aa"], 0, 1⟩, ⟨["cc"], 0, 3⟩] "aa" "bb" 1 2 [7] [8, 9]
    (by decide) (by decide) (by decide) rfl rfl

/-- C10: when the guard fails — first_chunk_size at or above chunk_min_target,
or first_chunk_size + last_chunk_size above the maximum chunk capacity —
merge_chunks is a complete no-op: the storage and every metadata entry are
returned unchanged (and in the source no storage object is read, written or
deleted, all storage access being inside the guarded branch). -/
theorem merge_chunks_noop_C10 (target maxCS : Nat) (tensor : String) (storage : Storage)
    (entries : List MetaEntry) (fname : String) (f : Nat) (lname : String) (l : Nat)
    (h : ¬(f < target ∧ f + l ≤ maxCS)) :
    merge_chunks target maxCS tensor storage entries fname f lname l
      = some (storage, entries) := by
  unfold merge_chunks
  rw [if_neg h]

theorem merge_chunks_noop_C10_witness :
    merge_chunks 5 10 "t" [("t/chunks/aa", [7])] [⟨["aa"], 0, 1⟩] "aa" 7 "bb" 1
      = some ([("t/chunks/aa", [7])], [⟨["aa"], 0, 1⟩]) :=
  merge_chunks_noop_C10 5 10 "t" [("t/chunks/aa", [7])] [⟨["aa"], 0, 1⟩] "aa" 7 "bb" 1
    (by decide)

/-! ## Theorems: linked video reads (C8) -/

/-- C8: the claim describes the intended squeeze behavior, but the code never
returns a squeezed array. For a bare int index, squeeze is set to true yet the
very next use of the index, index.values, raises AttributeError (a Python int
has no .values), so no value is returned at all; and even on the path where a
value is returned, video_sample.squeeze(0) is called with its result discarded,
so an Index-object request selecting a single frame still comes back with the
leading frame dimension of extent 1 kept (second conjunct). -/
theorem video_int_index_not_squeezed_C8 :
    get_video_sample demoVideoEnv (PyIndex.intIdx 0) = Except.error "AttributeError" ∧
    get_video_sample demoVideoEnv (PyIndex.objIdx [0, 1])
      = Except.ok ⟨[1, 2, 2], "uint8", List.replicate 4 0⟩ := ⟨rfl, rfl⟩
